import Mathlib

/-!
Shallow embedding of the cat-and-mouse pursuit game (`minimax.py`).

Positions are integer pairs `(row, col)` on an 8x8 board.  The pursuer
("cat") chooses moves by bounded-depth minimax with alpha-beta pruning;
the evader ("mouse") follows a single-ply heuristic policy.  Python's
`random.choice(candidates)` is modelled nondeterministically: each
decision function returns the exact list of candidates the code hands to
`random.choice` (in enumeration order), so the set of possible returned
moves is the set of members of that list.  A returned list `[]` from
`move_cat` stands for Python returning `None` as the move (the leaf
branch); the recursive branches never produce `[]` (proved below), which
is exactly the code's "never raises" property, since `random.choice`
raises only on an empty list.  Python floats `-inf`/`+inf` used for
alpha/beta and the running best score are modelled by
`WithBot (WithTop ℤ)`; all actual scores are integers.
-/

namespace CatMouse

/-- Board positions: integer `(row, col)` pairs, as in the Python tuples. -/
abbrev Pos := ℤ × ℤ

/-- BOARD_SIZE constant from the source (8x8 board). -/
def BOARD_SIZE : ℤ := 8

/-- Scores and alpha/beta bounds: integers extended with `-inf` (`⊥`) and
`+inf` (`⊤`), mirroring the Python floats `float("-inf")`/`float("inf")`. -/
abbrev XInt := WithBot (WithTop ℤ)

/-- Embedding of an integer score into the extended score type. -/
def xi (n : ℤ) : XInt := ((n : WithTop ℤ) : XInt)

/-- Positive infinity, Python `float("inf")`. -/
def posInf : XInt := ((⊤ : WithTop ℤ) : XInt)

/-- Bounds check `0 <= x < BOARD_SIZE` on both coordinates, as in the list
comprehensions of the source. -/
def inBounds (p : Pos) : Bool :=
  decide (0 ≤ p.1 ∧ p.1 < BOARD_SIZE ∧ 0 ≤ p.2 ∧ p.2 < BOARD_SIZE)

/-- The eight king-move offsets, in the exact enumeration order used by
`move_cat` and `move_mouse`. -/
def kingOffsets : List (ℤ × ℤ) :=
  [(-1, 0), (1, 0), (0, -1), (0, 1), (-1, -1), (-1, 1), (1, -1), (1, 1)]

/-- `calculate_manhattan_distance` from the source:
`abs(pos1[0]-pos2[0]) + abs(pos1[1]-pos2[1])`. -/
def calculate_manhattan_distance (p q : Pos) : ℤ :=
  |p.1 - q.1| + |p.2 - q.2|

/-- Legal king-move neighbors of a cell: the eight offsets applied to the
cell, filtered to the board, in enumeration order (the `possible_moves`
list comprehension of the source). -/
def neighbors (p : Pos) : List Pos :=
  (kingOffsets.map (fun d => (p.1 + d.1, p.2 + d.2))).filter (fun q => inBounds q)

/-- The `capture_moves` list comprehension of `move_cat`: neighbor cells of
the cat that equal the mouse position and are in bounds. -/
def capture_moves (cat mouse : Pos) : List Pos :=
  (kingOffsets.map (fun d => (cat.1 + d.1, cat.2 + d.2))).filter
    (fun q => decide (q = mouse) && inBounds q)

/-- Leaf evaluation of `move_cat`:
`-manhattan(cat,mouse)*15 + -manhattan(cat,escape)*8`. -/
def leafScore (cat mouse escape : Pos) : XInt :=
  xi (-(calculate_manhattan_distance cat mouse) * 15 +
      -(calculate_manhattan_distance cat escape) * 8)

/-- `cat_caught_mouse` from the source: position equality. -/
def cat_caught_mouse (cat mouse : Pos) : Bool := decide (cat = mouse)

/-- `mouse_escaped` from the source: position equality. -/
def mouse_escaped (mouse escape : Pos) : Bool := decide (mouse = escape)

/-- The maximizing loop of `move_cat`.  `child m a` is the score of the
recursive call on move `m` with current alpha `a` (beta is fixed for the
whole loop).  State: remaining moves, running `max_eval`, accumulated
`best_moves`, current alpha.  Mirrors the Python loop body, including the
`break` on `beta <= alpha` placed after the alpha update. -/
def catLoopMax (child : Pos → XInt → XInt) (beta : XInt) :
    List Pos → XInt → List Pos → XInt → List Pos × XInt
  | [], maxEval, best, _ => (best, maxEval)
  | m :: rest, maxEval, best, alpha =>
    let s := child m alpha
    let st : XInt × List Pos :=
      if maxEval < s then (s, [m])
      else if s = maxEval then (maxEval, best ++ [m])
      else (maxEval, best)
    let alpha' := max alpha s
    if beta ≤ alpha' then (st.2, st.1)
    else catLoopMax child beta rest st.1 st.2 alpha'

/-- The minimizing loop of `move_cat`.  `child m b` is the score of the
recursive call on move `m` with current beta `b` (alpha is fixed).  State:
remaining moves, running `min_eval`, accumulated `best_moves`, current
beta. -/
def catLoopMin (child : Pos → XInt → XInt) (alpha : XInt) :
    List Pos → XInt → List Pos → XInt → List Pos × XInt
  | [], minEval, best, _ => (best, minEval)
  | m :: rest, minEval, best, beta =>
    let s := child m beta
    let st : XInt × List Pos :=
      if s < minEval then (s, [m])
      else if s = minEval then (minEval, best ++ [m])
      else (minEval, best)
    let beta' := min beta s
    if beta' ≤ alpha then (st.2, st.1)
    else catLoopMin child alpha rest st.1 st.2 beta'

/-- `move_cat` from the source.  Returns the candidate list handed to
`random.choice` together with the evaluation score:
`(capture_moves, 1000)` on the immediate-capture shortcut (the code
returns `capture_moves[0]`, and `capture_moves` is proved below to be the
singleton `[mouse]`), `([], leafScore)` at a leaf (depth 0 or cat already
on the mouse; `[]` stands for the move `None`), and `(best_moves, value)`
from the alpha-beta loop otherwise. -/
def move_cat : Nat → Pos → Pos → Pos → XInt → XInt → Bool → List Pos × XInt
  | 0, cat, mouse, escape, _, _, _ =>
    if capture_moves cat mouse = [] then ([], leafScore cat mouse escape)
    else (capture_moves cat mouse, xi 1000)
  | depth + 1, cat, mouse, escape, alpha, beta, maximizing =>
    if capture_moves cat mouse = [] then
      if cat_caught_mouse cat mouse then ([], leafScore cat mouse escape)
      else
        if maximizing then
          catLoopMax (fun m a => (move_cat depth m mouse escape a beta false).2)
            beta (neighbors cat) ⊥ [] alpha
        else
          catLoopMin (fun m b => (move_cat depth m mouse escape alpha b true).2)
            alpha (neighbors cat) posInf [] beta
    else (capture_moves cat mouse, xi 1000)

/-- Python `max(xs, key=f)` on a nonempty list `cur :: rest`: the first
element attaining the maximum (only strict improvements replace the
running maximum). -/
def pyMaxFrom (f : Pos → ℤ) : List Pos → Pos → Pos
  | [], cur => cur
  | x :: rest, cur => pyMaxFrom f rest (if f cur < f x then x else cur)

/-- The scoring loop of `move_mouse` (safe-moves branch): remaining moves,
running `best_score` (starting at `-inf`), accumulated `best_moves`. -/
def mouseLoop (score : Pos → ℤ) : List Pos → XInt → List Pos → List Pos
  | [], _, best => best
  | m :: rest, bestScore, best =>
    if bestScore < xi (score m) then mouseLoop score rest (xi (score m)) [m]
    else if xi (score m) = bestScore then mouseLoop score rest bestScore (best ++ [m])
    else mouseLoop score rest bestScore best

/-- The per-candidate score of `move_mouse`:
`cat_distance + 2*escape_progress + corner_penalty + safe_bonus`. -/
def mouseScore (mouse cat escape : Pos) (safe : List Pos) (m : Pos) : ℤ :=
  let cat_distance := calculate_manhattan_distance m cat
  let escape_progress :=
    calculate_manhattan_distance mouse escape - calculate_manhattan_distance m escape
  let corner_penalty : ℤ :=
    if m = ((0 : ℤ), (0 : ℤ)) ∨ m = ((0 : ℤ), BOARD_SIZE - 1) ∨
       m = (BOARD_SIZE - 1, (0 : ℤ)) ∨ m = (BOARD_SIZE - 1, BOARD_SIZE - 1) then -3 else 0
  let safe_bonus : ℤ := if m ∈ safe then 5 else 0
  cat_distance + 2 * escape_progress + corner_penalty + safe_bonus

/-- The mouse's candidate set after the immediate actions: legal neighbors
with the cat's current cell removed (Python `list.remove`, guarded by a
membership test). -/
def mousePossible (mouse cat : Pos) : List Pos :=
  let possible := neighbors mouse
  if cat ∈ possible then possible.erase cat else possible

/-- The safe moves of `move_mouse`: candidates not among the cat's
possible next cells. -/
def mouseSafe (mouse cat : Pos) : List Pos :=
  (mousePossible mouse cat).filter (fun m => decide (m ∉ neighbors cat))

/-- `move_mouse` from the source, as the list of positions the code can
return: `[escape]` on the escape shortcut; in the cornered fallback (no
safe moves, some candidate) the singleton `max(possible_moves, key=
distance to cat)`; otherwise the `best_moves` of the scoring loop handed
to `random.choice`, or `[mouse]` when that list is empty (the code then
returns `mouse_pos`). -/
def move_mouse_choices (mouse cat escape : Pos) : List Pos :=
  if escape ∈ neighbors mouse then [escape]
  else
    let possible := mousePossible mouse cat
    let safe := mouseSafe mouse cat
    let evaluation := if safe = [] then possible else safe
    if safe = [] then
      match evaluation with
      | [] => [mouse]
      | x :: rest => [pyMaxFrom (fun m => calculate_manhattan_distance m cat) rest x]
    else
      let best := mouseLoop (mouseScore mouse cat escape safe) evaluation ⊥ []
      if best = [] then [mouse] else best

/-- The edge cells in the exact scan order of `random_edge_pos`:
`for i in range(8): [(0,i),(i,7),(7,i),(i,0)]` (corners appear twice). -/
def edgeScanList : List Pos :=
  (List.range 8).flatMap
    (fun i => [((0 : ℤ), (i : ℤ)), ((i : ℤ), BOARD_SIZE - 1),
               (BOARD_SIZE - 1, (i : ℤ)), ((i : ℤ), (0 : ℤ))])

/-- The `possible_positions` list of `random_edge_pos`: edge cells at
Manhattan distance at least `min_distance` from the mouse. -/
def edge_candidates (mouse : Pos) (min_distance : ℤ) : List Pos :=
  edgeScanList.filter (fun p => decide (min_distance ≤ calculate_manhattan_distance p mouse))

/-- The fallback scan of `random_edge_pos`: running `(max_distance,
farthest_pos)` over the edge cells, starting at `(-1, None)`, replacing
only on strict improvement. -/
def farthestAux (mouse : Pos) : List Pos → ℤ → Option Pos → ℤ × Option Pos
  | [], maxd, far => (maxd, far)
  | p :: rest, maxd, far =>
    if maxd < calculate_manhattan_distance p mouse then
      farthestAux mouse rest (calculate_manhattan_distance p mouse) (some p)
    else farthestAux mouse rest maxd far

/-- The `farthest_pos` the fallback branch of `random_edge_pos` returns. -/
def farthest_edge (mouse : Pos) : Option Pos :=
  (farthestAux mouse edgeScanList (-1) none).2

/-- `random_edge_pos` from the source, as the list of positions the code
can return: the filtered candidates handed to `random.choice` when
nonempty, otherwise the singleton deterministic farthest edge cell. -/
def random_edge_pos_choices (mouse : Pos) (min_distance : ℤ) : List Pos :=
  if edge_candidates mouse min_distance = [] then
    match farthest_edge mouse with
    | some p => [p]
    | none => []
  else edge_candidates mouse min_distance

/-- Edge-cell predicate: row or column equal to `0` or `BOARD_SIZE - 1`. -/
def isEdgeCell (p : Pos) : Bool :=
  decide (p.1 = 0 ∨ p.1 = BOARD_SIZE - 1 ∨ p.2 = 0 ∨ p.2 = BOARD_SIZE - 1)

/-- The rejection loop of `main` placing cat and mouse: the first proposed
pair at Manhattan distance at least 4 is adopted.  The stream of random
proposals is abstracted as a list. -/
def setupPlace (proposals : List (Pos × Pos)) : Option (Pos × Pos) :=
  proposals.find? (fun pr => decide (4 ≤ calculate_manhattan_distance pr.1 pr.2))

/-- Terminal outcomes reported by the turn controller. -/
inductive Outcome where
  | CatWins
  | MouseEscaped
  | MouseSurvived
deriving DecidableEq, Repr

/-- The terminal checks `main` runs on an evader turn, in source order:
`if cat_caught_mouse: CatWins elif mouse_escaped: MouseEscaped`, then —
unconditionally, not in the `elif` chain — increment the move count and
report `MouseSurvived` when it reaches 20.  Returns the list of outcomes
reported (printed) on this turn, in order, together with the new move
count. -/
def mouse_turn_outcomes (cat newMouse escape : Pos) (move_count : ℕ) :
    List Outcome × ℕ :=
  let first : List Outcome :=
    if cat_caught_mouse cat newMouse then [Outcome.CatWins]
    else if mouse_escaped newMouse escape then [Outcome.MouseEscaped]
    else []
  let mc := move_count + 1
  let second : List Outcome := if 20 ≤ mc then [Outcome.MouseSurvived] else []
  (first ++ second, mc)

end CatMouse

namespace CatMouse

/-! Basic facts about the geometry definitions. -/

theorem neighbors_mem_inBounds {p q : Pos} (h : q ∈ neighbors p) : inBounds q = true := by
  have := List.of_mem_filter h
  simpa using this

theorem neighborMap_nodup (p : Pos) :
    (kingOffsets.map (fun d => (p.1 + d.1, p.2 + d.2))).Nodup := by
  refine List.Nodup.map ?_ (by decide)
  intro d₁ d₂ h
  rw [Prod.mk.injEq] at h
  exact Prod.ext (by omega) (by omega)

theorem neighbors_nodup (p : Pos) : (neighbors p).Nodup :=
  List.Nodup.filter _ (neighborMap_nodup p)

theorem capture_moves_mem {cat mouse q : Pos} (h : q ∈ capture_moves cat mouse) :
    q = mouse := by
  have := List.of_mem_filter h
  simp only [Bool.and_eq_true, decide_eq_true_eq] at this
  exact this.1

theorem mem_neighbors_iff {p q : Pos} :
    q ∈ neighbors p ↔
      q ∈ kingOffsets.map (fun d => (p.1 + d.1, p.2 + d.2)) ∧ inBounds q = true := by
  constructor
  · intro h
    exact ⟨List.mem_of_mem_filter h, neighbors_mem_inBounds h⟩
  · intro ⟨h1, h2⟩
    exact List.mem_filter.2 ⟨h1, h2⟩

theorem mem_capture_moves_iff {cat mouse q : Pos} :
    q ∈ capture_moves cat mouse ↔ q = mouse ∧ mouse ∈ neighbors cat := by
  constructor
  · intro h
    have hq := capture_moves_mem h
    subst hq
    have h1 := List.mem_of_mem_filter h
    have h2 := List.of_mem_filter h
    simp only [Bool.and_eq_true, decide_eq_true_eq] at h2
    exact ⟨rfl, mem_neighbors_iff.2 ⟨h1, h2.2⟩⟩
  · intro ⟨hq, hm⟩
    subst hq
    rcases mem_neighbors_iff.1 hm with ⟨h1, h2⟩
    refine List.mem_filter.2 ⟨h1, ?_⟩
    simp [h2]

theorem capture_moves_eq_nil_iff {cat mouse : Pos} :
    capture_moves cat mouse = [] ↔ mouse ∉ neighbors cat := by
  constructor
  · intro h hm
    have : mouse ∈ capture_moves cat mouse := mem_capture_moves_iff.2 ⟨rfl, hm⟩
    simp [h] at this
  · intro h
    rcases hc : capture_moves cat mouse with _ | ⟨q, rest⟩
    · rfl
    · have : q ∈ capture_moves cat mouse := by simp [hc]
      exact absurd (mem_capture_moves_iff.1 this).2 h

theorem eq_singleton_of_nodup {l : List Pos} {a : Pos} (hd : l.Nodup)
    (hall : ∀ x ∈ l, x = a) (hmem : a ∈ l) : l = [a] := by
  rcases l with _ | ⟨x, rest⟩
  · simp at hmem
  · have hx : x = a := hall x (by simp)
    subst hx
    have : rest = [] := by
      rcases rest with _ | ⟨y, rest'⟩
      · rfl
      · have hy : y = x := hall y (by simp)
        subst hy
        simp at hd
    simp [this]

theorem capture_moves_eq_singleton {cat mouse : Pos} (h : mouse ∈ neighbors cat) :
    capture_moves cat mouse = [mouse] := by
  refine eq_singleton_of_nodup ?_ (fun x hx => capture_moves_mem hx)
    (mem_capture_moves_iff.2 ⟨rfl, h⟩)
  exact List.Nodup.filter _ (neighborMap_nodup cat)

end CatMouse

namespace CatMouse

/-- C1: for every cat, mouse and escape position, depth and alpha/beta
bounds, if some legal king-move neighbor of the cat equals the mouse's
current position then `move_cat` returns that neighbor cell (the mouse's
cell) as its only candidate move with score exactly 1000, uniformly in
the depth argument (so in particular without recursing). -/
theorem C1_immediate_capture_shortcut (cat mouse escape : Pos) (depth : ℕ)
    (alpha beta : XInt) (mx : Bool) (h : mouse ∈ neighbors cat) :
    move_cat depth cat mouse escape alpha beta mx = ([mouse], xi 1000) := by
  have hc : capture_moves cat mouse = [mouse] := capture_moves_eq_singleton h
  have hne : ¬ capture_moves cat mouse = [] := by simp [hc]
  cases depth <;> simp [move_cat, hne, hc]

/-- Witness for C1 at cat `(0,0)`, mouse `(0,1)`, escape `(7,7)`,
depth 5. -/
theorem C1_witness :
    ((0 : ℤ), (1 : ℤ)) ∈ neighbors ((0 : ℤ), (0 : ℤ)) ∧
      move_cat 5 ((0 : ℤ), (0 : ℤ)) ((0 : ℤ), (1 : ℤ)) ((7 : ℤ), (7 : ℤ)) ⊥ posInf true =
        ([((0 : ℤ), (1 : ℤ))], xi 1000) :=
  ⟨by decide,
    C1_immediate_capture_shortcut ((0 : ℤ), (0 : ℤ)) ((0 : ℤ), (1 : ℤ)) ((7 : ℤ), (7 : ℤ))
      5 ⊥ posInf true (by decide)⟩

/-- C2 fails as stated: at depth 0 with cat `(0,0)`, mouse `(0,1)` (a
neighbor of the cat) and escape `(7,7)`, `move_cat` takes the
immediate-capture shortcut and returns the move `(0,1)` with score 1000,
not "no move" with the leaf evaluation. -/
theorem C2_counterexample :
    ¬ (move_cat 0 ((0 : ℤ), (0 : ℤ)) ((0 : ℤ), (1 : ℤ)) ((7 : ℤ), (7 : ℤ)) ⊥ posInf true =
        ([], xi (-15 * calculate_manhattan_distance ((0 : ℤ), (0 : ℤ)) ((0 : ℤ), (1 : ℤ)) -
              8 * calculate_manhattan_distance ((0 : ℤ), (0 : ℤ)) ((7 : ℤ), (7 : ℤ))))) := by
  decide

/-- C2 amended: at depth 0, provided the mouse is not a legal king-move
neighbor of the cat (so the immediate-capture shortcut does not fire),
`move_cat` returns no move (`[]`) and the score
`-15*manhattan(cat,mouse) - 8*manhattan(cat,escape)` evaluated at the
input cat position. -/
theorem C2_depth_zero_leaf (cat mouse escape : Pos) (alpha beta : XInt) (mx : Bool)
    (h : mouse ∉ neighbors cat) :
    move_cat 0 cat mouse escape alpha beta mx =
      ([], xi (-15 * calculate_manhattan_distance cat mouse -
               8 * calculate_manhattan_distance cat escape)) := by
  have hgoal : move_cat 0 cat mouse escape alpha beta mx = ([], leafScore cat mouse escape) := by
    simp [move_cat, capture_moves_eq_nil_iff.2 h]
  have harith : -(calculate_manhattan_distance cat mouse) * 15 +
      -(calculate_manhattan_distance cat escape) * 8 =
      -15 * calculate_manhattan_distance cat mouse -
        8 * calculate_manhattan_distance cat escape := by ring
  rw [hgoal, leafScore, harith]

/-- Witness for C2 (amended) at cat `(0,0)`, mouse `(4,4)`, escape
`(7,7)`. -/
theorem C2_witness :
    ((4 : ℤ), (4 : ℤ)) ∉ neighbors ((0 : ℤ), (0 : ℤ)) ∧
      move_cat 0 ((0 : ℤ), (0 : ℤ)) ((4 : ℤ), (4 : ℤ)) ((7 : ℤ), (7 : ℤ)) ⊥ posInf true =
        ([], xi (-15 * calculate_manhattan_distance ((0 : ℤ), (0 : ℤ)) ((4 : ℤ), (4 : ℤ)) -
                 8 * calculate_manhattan_distance ((0 : ℤ), (0 : ℤ)) ((7 : ℤ), (7 : ℤ)))) :=
  ⟨by decide,
    C2_depth_zero_leaf ((0 : ℤ), (0 : ℤ)) ((4 : ℤ), (4 : ℤ)) ((7 : ℤ), (7 : ℤ))
      ⊥ posInf true (by decide)⟩

/-- C5: whenever the escape cell is a legal king-move neighbor of the
mouse, `move_mouse` returns exactly the escape cell (its candidate list
is the singleton `[escape]`), regardless of the cat's position — in
particular even when the cat is adjacent to the mouse. -/
theorem C5_escape_shortcut (mouse cat escape : Pos) (h : escape ∈ neighbors mouse) :
    move_mouse_choices mouse cat escape = [escape] := by
  simp [move_mouse_choices, h]

/-- Witness for C5 at mouse `(0,0)`, cat `(1,1)` (adjacent), escape
`(0,1)` (adjacent). -/
theorem C5_witness :
    ((0 : ℤ), (1 : ℤ)) ∈ neighbors ((0 : ℤ), (0 : ℤ)) ∧
      move_mouse_choices ((0 : ℤ), (0 : ℤ)) ((1 : ℤ), (1 : ℤ)) ((0 : ℤ), (1 : ℤ)) =
        [((0 : ℤ), (1 : ℤ))] :=
  ⟨by decide,
    C5_escape_shortcut ((0 : ℤ), (0 : ℤ)) ((1 : ℤ), (1 : ℤ)) ((0 : ℤ), (1 : ℤ)) (by decide)⟩

end CatMouse

namespace CatMouse

/-! Facts about the mouse's candidate lists and loops. -/

theorem neighbors_length_ge {p : Pos} (hp : inBounds p = true) :
    3 ≤ (neighbors p).length := by
  obtain ⟨r, c⟩ := p
  simp only [inBounds, decide_eq_true_eq, BOARD_SIZE] at hp
  obtain ⟨h1, h2, h3, h4⟩ := hp
  interval_cases r <;> interval_cases c <;> decide

theorem mousePossible_subset {mouse cat : Pos} :
    ∀ r ∈ mousePossible mouse cat, r ∈ neighbors mouse := by
  intro r hr
  unfold mousePossible at hr
  by_cases h : cat ∈ neighbors mouse
  · rw [if_pos h] at hr
    exact List.erase_subset _ _ hr
  · rwa [if_neg h] at hr

theorem not_mem_mousePossible_self {mouse cat : Pos} : cat ∉ mousePossible mouse cat := by
  unfold mousePossible
  by_cases h : cat ∈ neighbors mouse
  · rw [if_pos h]
    intro hc
    exact (((neighbors_nodup mouse).mem_erase_iff).1 hc).1 rfl
  · rw [if_neg h]
    exact h

theorem mousePossible_ne_nil (mouse cat : Pos) (hm : inBounds mouse = true) :
    mousePossible mouse cat ≠ [] := by
  have hlen := neighbors_length_ge hm
  unfold mousePossible
  by_cases h : cat ∈ neighbors mouse
  · rw [if_pos h]
    have : ((neighbors mouse).erase cat).length = (neighbors mouse).length - 1 :=
      List.length_erase_of_mem h
    intro hc
    rw [hc] at this
    simp at this
    omega
  · rw [if_neg h]
    intro hc
    rw [hc] at hlen
    simp at hlen

theorem mouseSafe_subset {mouse cat : Pos} :
    ∀ r ∈ mouseSafe mouse cat, r ∈ mousePossible mouse cat := by
  intro r hr
  exact List.mem_of_mem_filter hr

theorem pyMaxFrom_mem (f : Pos → ℤ) :
    ∀ (l : List Pos) (cur : Pos), pyMaxFrom f l cur ∈ cur :: l := by
  intro l
  induction l with
  | nil => intro cur; simp [pyMaxFrom]
  | cons x rest ih =>
    intro cur
    simp only [pyMaxFrom]
    rcases List.mem_cons.1 (ih (if f cur < f x then x else cur)) with h | h
    · rw [h]
      by_cases hc : f cur < f x <;> simp [hc]
    · simp [List.mem_cons, h]

theorem pyMaxFrom_le (f : Pos → ℤ) :
    ∀ (l : List Pos) (cur p : Pos), p ∈ cur :: l → f p ≤ f (pyMaxFrom f l cur) := by
  intro l
  induction l with
  | nil =>
    intro cur p hp
    simp at hp
    simp [pyMaxFrom, hp]
  | cons x rest ih =>
    intro cur p hp
    simp only [pyMaxFrom]
    have hstep : f cur ≤ f (if f cur < f x then x else cur) ∧
        f x ≤ f (if f cur < f x then x else cur) := by
      by_cases hc : f cur < f x <;> simp [hc] <;> omega
    have hself : f (if f cur < f x then x else cur) ≤
        f (pyMaxFrom f rest (if f cur < f x then x else cur)) :=
      ih _ _ (by simp)
    rcases List.mem_cons.1 hp with h | h
    · subst h; exact le_trans hstep.1 hself
    · rcases List.mem_cons.1 h with h2 | h2
      · subst h2; exact le_trans hstep.2 hself
      · exact ih _ p (List.mem_cons_of_mem _ h2)

theorem mouseLoop_subset (score : Pos → ℤ) :
    ∀ (l : List Pos) (bs : XInt) (best : List Pos) (r : Pos),
      r ∈ mouseLoop score l bs best → r ∈ best ∨ r ∈ l := by
  intro l
  induction l with
  | nil =>
    intro bs best r h
    simp only [mouseLoop] at h
    exact Or.inl h
  | cons m rest ih =>
    intro bs best r h
    simp only [mouseLoop] at h
    by_cases h1 : bs < xi (score m)
    · rw [if_pos h1] at h
      rcases ih _ _ _ h with h2 | h2
      · simp at h2; subst h2; right; simp
      · right; simp [h2]
    · rw [if_neg h1] at h
      by_cases h2 : xi (score m) = bs
      · rw [if_pos h2] at h
        rcases ih _ _ _ h with h3 | h3
        · rcases List.mem_append.1 h3 with h4 | h4
          · exact Or.inl h4
          · simp at h4; subst h4; right; simp
        · right; simp [h3]
      · rw [if_neg h2] at h
        rcases ih _ _ _ h with h3 | h3
        · exact Or.inl h3
        · right; simp [h3]

theorem mouseLoop_ne_nil_of (score : Pos → ℤ) :
    ∀ (l : List Pos) (bs : XInt) (best : List Pos), best ≠ [] →
      mouseLoop score l bs best ≠ [] := by
  intro l
  induction l with
  | nil => intro bs best h; simpa [mouseLoop] using h
  | cons m rest ih =>
    intro bs best h
    simp only [mouseLoop]
    by_cases h1 : bs < xi (score m)
    · rw [if_pos h1]; exact ih _ _ (by simp)
    · rw [if_neg h1]
      by_cases h2 : xi (score m) = bs
      · rw [if_pos h2]; exact ih _ _ (by simp)
      · rw [if_neg h2]; exact ih _ _ h

theorem mouseLoop_start_ne_nil (score : Pos → ℤ) {l : List Pos} (h : l ≠ []) :
    mouseLoop score l ⊥ [] ≠ [] := by
  rcases l with _ | ⟨m, rest⟩
  · exact absurd rfl h
  · simp only [mouseLoop]
    have hb : (⊥ : XInt) < xi (score m) := WithBot.bot_lt_coe _
    rw [if_pos hb]
    exact mouseLoop_ne_nil_of _ _ _ _ (by simp)

end CatMouse

namespace CatMouse

/-- C4 fails as stated: with mouse `(0,0)`, cat `(1,1)` and the escape
cell also at `(1,1)` (a legal neighbor of the mouse occupied by the cat),
the escape shortcut fires first and the returned move `(1,1)` equals the
cat's current position. -/
theorem C4_counterexample :
    ((1 : ℤ), (1 : ℤ)) ∈
      move_mouse_choices ((0 : ℤ), (0 : ℤ)) ((1 : ℤ), (1 : ℤ)) ((1 : ℤ), (1 : ℤ)) := by
  decide

/-- C4 amended: for every in-bounds mouse position, every position
`move_mouse` can return differs from the cat's current position, except
in the one excluded situation where the escape cell is a legal neighbor
of the mouse and the cat currently occupies the escape cell (then the
escape shortcut returns the cat's cell). -/
theorem C4_never_on_cat (mouse cat escape : Pos) (hm : inBounds mouse = true)
    (h : ¬ (escape ∈ neighbors mouse ∧ cat = escape)) :
    ∀ r ∈ move_mouse_choices mouse cat escape, r ≠ cat := by
  intro r hr
  simp only [move_mouse_choices] at hr
  by_cases he : escape ∈ neighbors mouse
  · rw [if_pos he] at hr
    simp at hr
    subst hr
    intro hc
    exact h ⟨he, hc.symm⟩
  · rw [if_neg he] at hr
    by_cases hs : mouseSafe mouse cat = []
    · simp only [hs, if_pos] at hr
      have hp := mousePossible_ne_nil mouse cat hm
      rcases hpp : mousePossible mouse cat with _ | ⟨x, rest⟩
      · exact absurd hpp hp
      · rw [hpp] at hr
        simp at hr
        subst hr
        intro hc
        have hmem : cat ∈ x :: rest := by
          rw [← hc]
          exact pyMaxFrom_mem _ rest x
        rw [← hpp] at hmem
        exact not_mem_mousePossible_self hmem
    · simp only [if_neg hs] at hr
      have hne := mouseLoop_start_ne_nil (mouseScore mouse cat escape (mouseSafe mouse cat)) hs
      rw [if_neg hne] at hr
      rcases mouseLoop_subset _ _ _ _ _ hr with h2 | h2
      · simp at h2
      · intro hc
        subst hc
        exact not_mem_mousePossible_self (mouseSafe_subset _ h2)

/-- Witness for C4 (amended) at mouse `(3,3)`, cat `(5,5)`, escape
`(0,3)`: the single candidate `(2,3)` differs from the cat's cell. -/
theorem C4_witness :
    inBounds ((3 : ℤ), (3 : ℤ)) = true ∧
      ((2 : ℤ), (3 : ℤ)) ∈
        move_mouse_choices ((3 : ℤ), (3 : ℤ)) ((5 : ℤ), (5 : ℤ)) ((0 : ℤ), (3 : ℤ)) ∧
      ((2 : ℤ), (3 : ℤ)) ≠ ((5 : ℤ), (5 : ℤ)) :=
  ⟨by decide, by decide,
    C4_never_on_cat ((3 : ℤ), (3 : ℤ)) ((5 : ℤ), (5 : ℤ)) ((0 : ℤ), (3 : ℤ))
      (by decide) (by decide) ((2 : ℤ), (3 : ℤ)) (by decide)⟩

end CatMouse

namespace CatMouse

/-- The running maximum of the scores of a candidate list, starting from
`a` (matches how `best_score` evolves through the scoring loop). -/
def foldMaxScore (score : Pos → ℤ) (l : List Pos) (a : XInt) : XInt :=
  l.foldl (fun x m => max x (xi (score m))) a

theorem foldMaxScore_cons (score : Pos → ℤ) (m : Pos) (rest : List Pos) (a : XInt) :
    foldMaxScore score (m :: rest) a = foldMaxScore score rest (max a (xi (score m))) := rfl

theorem le_foldMaxScore (score : Pos → ℤ) :
    ∀ (l : List Pos) (a : XInt), a ≤ foldMaxScore score l a := by
  intro l
  induction l with
  | nil => intro a; simp [foldMaxScore]
  | cons m rest ih =>
    intro a
    rw [foldMaxScore_cons]
    exact le_trans (le_max_left _ _) (ih _)

theorem foldMaxScore_attained (score : Pos → ℤ) :
    ∀ (l : List Pos) (a : XInt),
      foldMaxScore score l a = a ∨ ∃ m ∈ l, xi (score m) = foldMaxScore score l a := by
  intro l
  induction l with
  | nil => intro a; left; rfl
  | cons m rest ih =>
    intro a
    rw [foldMaxScore_cons]
    rcases ih (max a (xi (score m))) with h | h
    · rcases max_choice a (xi (score m)) with hm | hm
      · left; rw [h, hm]
      · right; exact ⟨m, by simp, by rw [h, hm]⟩
    · rcases h with ⟨x, hx, hxx⟩
      right; exact ⟨x, by simp [hx], hxx⟩

/-- The scoring loop collects exactly the full tied set: its result is the
accumulated list (kept only when no later score beats the incoming best)
followed by all candidates attaining the overall maximum score. -/
theorem mouseLoop_spec (score : Pos → ℤ) :
    ∀ (l : List Pos) (bs : XInt) (best : List Pos),
      mouseLoop score l bs best =
        (if bs = foldMaxScore score l bs then best else []) ++
          l.filter (fun m => decide (xi (score m) = foldMaxScore score l bs)) := by
  intro l
  induction l with
  | nil => intro bs best; simp [mouseLoop, foldMaxScore]
  | cons m rest ih =>
    intro bs best
    simp only [mouseLoop, foldMaxScore_cons]
    rcases lt_trichotomy bs (xi (score m)) with h1 | h1 | h1
    · rw [if_pos h1]
      have hmax : max bs (xi (score m)) = xi (score m) := max_eq_right h1.le
      simp only [hmax]
      rw [ih (xi (score m)) [m]]
      have hne : bs ≠ foldMaxScore score rest (xi (score m)) := by
        intro hc
        have hM := le_foldMaxScore score rest (xi (score m))
        rw [← hc] at hM
        exact absurd h1 (not_lt_of_ge hM)
      rw [if_neg hne, List.filter_cons]
      by_cases h2 : xi (score m) = foldMaxScore score rest (xi (score m))
      · rw [if_pos h2, if_pos (decide_eq_true h2)]
        simp
      · rw [if_neg h2]
        simp [h2]
    · rw [if_neg (by rw [h1]; exact lt_irrefl _), if_pos h1.symm]
      have hmax : max bs (xi (score m)) = bs := max_eq_left (le_of_eq h1.symm)
      simp only [hmax]
      rw [ih bs (best ++ [m]), List.filter_cons]
      by_cases h2 : bs = foldMaxScore score rest bs
      · have hm2 : xi (score m) = foldMaxScore score rest bs := by rw [← h1]; exact h2
        rw [if_pos h2, if_pos h2, if_pos (decide_eq_true hm2)]
        simp
      · have hm2 : ¬ xi (score m) = foldMaxScore score rest bs := by rw [← h1]; exact h2
        rw [if_neg h2, if_neg h2]
        simp [hm2]
    · rw [if_neg (not_lt_of_gt h1), if_neg (ne_of_lt h1)]
      have hmax : max bs (xi (score m)) = bs := max_eq_left h1.le
      simp only [hmax]
      rw [ih bs best, List.filter_cons]
      have hm2 : ¬ xi (score m) = foldMaxScore score rest bs := by
        intro hc
        have hM := le_foldMaxScore score rest bs
        rw [← hc] at hM
        exact absurd h1 (not_lt_of_ge hM)
      simp [hm2]

theorem foldMaxScore_bot_ne {score : Pos → ℤ} {l : List Pos} (h : l ≠ []) :
    (⊥ : XInt) ≠ foldMaxScore score l ⊥ := by
  rcases l with _ | ⟨m, rest⟩
  · exact absurd rfl h
  · intro hc
    rw [foldMaxScore_cons] at hc
    have hM := le_foldMaxScore score rest (max ⊥ (xi (score m)))
    rw [← hc] at hM
    have hlt : (⊥ : XInt) < max ⊥ (xi (score m)) :=
      lt_of_lt_of_le (WithBot.bot_lt_coe _) (le_max_right _ _)
    exact absurd hlt (not_lt_of_ge hM)

/-- The safe-moves branch of `move_mouse`, reduced: when the escape cell
is not adjacent and safe moves exist, the candidate list handed to
`random.choice` is exactly the set of safe moves attaining the maximum
heuristic score (the full tied set). -/
theorem move_mouse_choices_safe_branch (mouse cat escape : Pos)
    (he : escape ∉ neighbors mouse) (hs : mouseSafe mouse cat ≠ []) :
    move_mouse_choices mouse cat escape =
      (mouseSafe mouse cat).filter
        (fun m => decide (xi (mouseScore mouse cat escape (mouseSafe mouse cat) m) =
          foldMaxScore (mouseScore mouse cat escape (mouseSafe mouse cat))
            (mouseSafe mouse cat) ⊥)) := by
  simp only [move_mouse_choices, if_neg he, if_neg hs]
  rw [if_neg (mouseLoop_start_ne_nil _ hs),
    mouseLoop_spec (mouseScore mouse cat escape (mouseSafe mouse cat)) (mouseSafe mouse cat) ⊥ [],
    if_neg (foldMaxScore_bot_ne hs)]
  simp

/-- The cornered-evader fallback of `move_mouse`, reduced: when the escape
cell is not adjacent and no safe move exists, the returned list is the
singleton containing Python's `max(possible_moves, key=distance to cat)`
— the first candidate, in enumeration order, attaining the maximum. -/
theorem move_mouse_choices_cornered (mouse cat escape x : Pos) (rest : List Pos)
    (he : escape ∉ neighbors mouse) (hs : mouseSafe mouse cat = [])
    (hp : mousePossible mouse cat = x :: rest) :
    move_mouse_choices mouse cat escape =
      [pyMaxFrom (fun m => calculate_manhattan_distance m cat) rest x] := by
  simp only [move_mouse_choices, if_neg he, hs, if_pos]
  rw [hp]

end CatMouse

namespace CatMouse

/-- C3 fails as stated: with mouse `(0,0)`, cat `(1,1)`, escape `(7,7)`,
the mouse is cornered (no safe moves).  The candidates `(1,0)` and
`(0,1)` tie at the maximal distance 1 from the cat, yet the cornered
fallback hands `random.choice` only the singleton `[(1,0)]` — the first
candidate in enumeration order — so the tied set is not resolved by a
random choice among all tied candidates. -/
theorem C3_counterexample :
    move_mouse_choices ((0 : ℤ), (0 : ℤ)) ((1 : ℤ), (1 : ℤ)) ((7 : ℤ), (7 : ℤ)) =
        [((1 : ℤ), (0 : ℤ))] ∧
      ((0 : ℤ), (1 : ℤ)) ∈ mousePossible ((0 : ℤ), (0 : ℤ)) ((1 : ℤ), (1 : ℤ)) ∧
      mouseSafe ((0 : ℤ), (0 : ℤ)) ((1 : ℤ), (1 : ℤ)) = [] ∧
      calculate_manhattan_distance ((0 : ℤ), (1 : ℤ)) ((1 : ℤ), (1 : ℤ)) =
        calculate_manhattan_distance ((1 : ℤ), (0 : ℤ)) ((1 : ℤ), (1 : ℤ)) := by
  decide

/-- C3 amended: in the scored (safe-moves) branch of the evader policy the
list handed to `random.choice` is the full tied set — exactly the safe
candidates attaining the maximum heuristic score; in the cornered-evader
fallback, however, the choice is the deterministic singleton containing
the first candidate in enumeration order attaining the maximum distance
to the pursuer (Python `max`), not a random choice among the tied set. -/
theorem C3_tie_resolution :
    (∀ mouse cat escape : Pos, escape ∉ neighbors mouse → mouseSafe mouse cat ≠ [] →
      move_mouse_choices mouse cat escape =
        (mouseSafe mouse cat).filter
          (fun m => decide (xi (mouseScore mouse cat escape (mouseSafe mouse cat) m) =
            foldMaxScore (mouseScore mouse cat escape (mouseSafe mouse cat))
              (mouseSafe mouse cat) ⊥))) ∧
    (∀ (mouse cat escape x : Pos) (rest : List Pos), escape ∉ neighbors mouse →
      mouseSafe mouse cat = [] → mousePossible mouse cat = x :: rest →
      move_mouse_choices mouse cat escape =
          [pyMaxFrom (fun m => calculate_manhattan_distance m cat) rest x] ∧
        ∀ p ∈ mousePossible mouse cat,
          calculate_manhattan_distance p cat ≤
            calculate_manhattan_distance
              (pyMaxFrom (fun m => calculate_manhattan_distance m cat) rest x) cat) := by
  constructor
  · exact move_mouse_choices_safe_branch
  · intro mouse cat escape x rest he hs hp
    refine ⟨move_mouse_choices_cornered mouse cat escape x rest he hs hp, ?_⟩
    intro p hp2
    rw [hp] at hp2
    exact pyMaxFrom_le (fun m => calculate_manhattan_distance m cat) rest x p hp2

/-- Witness for C3 (amended): the scored branch at mouse `(3,3)`, cat
`(5,5)`, escape `(0,3)`, and the cornered fallback at mouse `(0,0)`, cat
`(1,1)`, escape `(7,7)`. -/
theorem C3_witness :
    (move_mouse_choices ((3 : ℤ), (3 : ℤ)) ((5 : ℤ), (5 : ℤ)) ((0 : ℤ), (3 : ℤ)) =
      (mouseSafe ((3 : ℤ), (3 : ℤ)) ((5 : ℤ), (5 : ℤ))).filter
        (fun m => decide (xi (mouseScore ((3 : ℤ), (3 : ℤ)) ((5 : ℤ), (5 : ℤ))
              ((0 : ℤ), (3 : ℤ)) (mouseSafe ((3 : ℤ), (3 : ℤ)) ((5 : ℤ), (5 : ℤ))) m) =
          foldMaxScore (mouseScore ((3 : ℤ), (3 : ℤ)) ((5 : ℤ), (5 : ℤ)) ((0 : ℤ), (3 : ℤ))
              (mouseSafe ((3 : ℤ), (3 : ℤ)) ((5 : ℤ), (5 : ℤ))))
            (mouseSafe ((3 : ℤ), (3 : ℤ)) ((5 : ℤ), (5 : ℤ))) ⊥))) ∧
    move_mouse_choices ((0 : ℤ), (0 : ℤ)) ((1 : ℤ), (1 : ℤ)) ((7 : ℤ), (7 : ℤ)) =
      [pyMaxFrom (fun m => calculate_manhattan_distance m ((1 : ℤ), (1 : ℤ)))
        [((0 : ℤ), (1 : ℤ))] ((1 : ℤ), (0 : ℤ))] :=
  ⟨C3_tie_resolution.1 ((3 : ℤ), (3 : ℤ)) ((5 : ℤ), (5 : ℤ)) ((0 : ℤ), (3 : ℤ))
      (by decide) (by decide),
    (C3_tie_resolution.2 ((0 : ℤ), (0 : ℤ)) ((1 : ℤ), (1 : ℤ)) ((7 : ℤ), (7 : ℤ))
      ((1 : ℤ), (0 : ℤ)) [((0 : ℤ), (1 : ℤ))] (by decide) (by decide) (by decide)).1⟩

end CatMouse

namespace CatMouse

/-- C6: the survival check of the turn controller is not part of the
capture/escape `elif` chain — the move count is incremented and tested
unconditionally.  Hence on the evader's 20th move (move count 19 before
the increment) a game in which the mouse reaches the escape cell reports
BOTH `MouseEscaped` and `MouseSurvived`, contradicting the specified
"at most one terminal outcome per game": here cat `(5,5)`, new mouse
position `(0,0)` equal to the escape cell, move count 19. -/
theorem C6_double_outcome_report :
    mouse_turn_outcomes ((5 : ℤ), (5 : ℤ)) ((0 : ℤ), (0 : ℤ)) ((0 : ℤ), (0 : ℤ)) 19 =
      ([Outcome.MouseEscaped, Outcome.MouseSurvived], 20) := by
  decide

/-! Nonemptiness and membership facts for the alpha-beta loops. -/

theorem neighbors_ne_nil {p : Pos} (hp : inBounds p = true) : neighbors p ≠ [] := by
  have hlen := neighbors_length_ge hp
  intro hc
  rw [hc] at hlen
  simp at hlen

theorem posInf_eq_top : posInf = (⊤ : XInt) := rfl

theorem catLoopMax_ne_nil (child : Pos → XInt → XInt) (beta : XInt) :
    ∀ (l : List Pos) (me : XInt) (best : List Pos) (a : XInt), best ≠ [] →
      (catLoopMax child beta l me best a).1 ≠ [] := by
  intro l
  induction l with
  | nil => intro me best a h; simpa [catLoopMax] using h
  | cons m rest ih =>
    intro me best a h
    simp only [catLoopMax]
    have hst : (if me < child m a then ((child m a), [m])
        else if child m a = me then (me, best ++ [m]) else (me, best)).2 ≠ [] := by
      by_cases h1 : me < child m a
      · simp [h1]
      · by_cases h2 : child m a = me
        · simp [h1, h2]
        · simp [h1, h2, h]
    by_cases hb : beta ≤ max a (child m a)
    · rw [if_pos hb]
      exact hst
    · rw [if_neg hb]
      exact ih _ _ _ hst

theorem catLoopMax_start_ne_nil (child : Pos → XInt → XInt) (beta a : XInt)
    {l : List Pos} (h : l ≠ []) :
    (catLoopMax child beta l ⊥ [] a).1 ≠ [] := by
  rcases l with _ | ⟨m, rest⟩
  · exact absurd rfl h
  · simp only [catLoopMax]
    have hst : (if (⊥ : XInt) < child m a then ((child m a), [m])
        else if child m a = ⊥ then ((⊥ : XInt), ([] : List Pos) ++ [m])
        else ((⊥ : XInt), ([] : List Pos))).2 ≠ [] := by
      by_cases h1 : (⊥ : XInt) < child m a
      · simp [h1]
      · have h2 : child m a = ⊥ := le_bot_iff.1 (not_lt.1 h1)
        simp [h1, h2]
    by_cases hb : beta ≤ max a (child m a)
    · rw [if_pos hb]
      exact hst
    · rw [if_neg hb]
      exact catLoopMax_ne_nil child beta rest _ _ _ hst

theorem catLoopMin_ne_nil (child : Pos → XInt → XInt) (alpha : XInt) :
    ∀ (l : List Pos) (me : XInt) (best : List Pos) (b : XInt), best ≠ [] →
      (catLoopMin child alpha l me best b).1 ≠ [] := by
  intro l
  induction l with
  | nil => intro me best b h; simpa [catLoopMin] using h
  | cons m rest ih =>
    intro me best b h
    simp only [catLoopMin]
    have hst : (if child m b < me then ((child m b), [m])
        else if child m b = me then (me, best ++ [m]) else (me, best)).2 ≠ [] := by
      by_cases h1 : child m b < me
      · simp [h1]
      · by_cases h2 : child m b = me
        · simp [h1, h2]
        · simp [h1, h2, h]
    by_cases hb : min b (child m b) ≤ alpha
    · rw [if_pos hb]
      exact hst
    · rw [if_neg hb]
      exact ih _ _ _ hst

theorem catLoopMin_start_ne_nil (child : Pos → XInt → XInt) (alpha b : XInt)
    {l : List Pos} (h : l ≠ []) :
    (catLoopMin child alpha l posInf [] b).1 ≠ [] := by
  rcases l with _ | ⟨m, rest⟩
  · exact absurd rfl h
  · simp only [catLoopMin]
    have hst : (if child m b < posInf then ((child m b), [m])
        else if child m b = posInf then (posInf, ([] : List Pos) ++ [m])
        else (posInf, ([] : List Pos))).2 ≠ [] := by
      by_cases h1 : child m b < posInf
      · simp [h1]
      · have h2 : child m b = posInf := by
          rw [posInf_eq_top] at h1 ⊢
          exact top_le_iff.1 (not_lt.1 h1)
        simp [h1, h2]
    by_cases hb : min b (child m b) ≤ alpha
    · rw [if_pos hb]
      exact hst
    · rw [if_neg hb]
      exact catLoopMin_ne_nil child alpha rest _ _ _ hst

end CatMouse

namespace CatMouse

/-- C8: for every in-bounds cat position and arbitrary depth, alpha, beta
and maximizing flag, `move_cat` never raises: whenever the candidate list
it would hand to `random.choice` is empty — i.e. the returned move is
`None` — the call was a leaf (depth 0 or the cat already on the mouse's
cell).  Contrapositively, in both the maximizing and the minimizing
branch of the recursive step the candidate list is non-empty, so the
empty-move-set error branch is unreachable. -/
theorem C8_never_raises (cat mouse escape : Pos) (depth : ℕ) (alpha beta : XInt)
    (mx : Bool) (hc : inBounds cat = true)
    (h : (move_cat depth cat mouse escape alpha beta mx).1 = []) :
    depth = 0 ∨ cat = mouse := by
  cases depth with
  | zero => exact Or.inl rfl
  | succ d =>
    by_cases hcap : capture_moves cat mouse = []
    · by_cases hcm : cat = mouse
      · exact Or.inr hcm
      · exfalso
        have hne := neighbors_ne_nil hc
        cases mx
        · simp only [move_cat, hcap, if_pos, cat_caught_mouse, hcm, decide_False,
            Bool.false_eq_true, if_false, Bool.if_false_right] at h
          exact catLoopMin_start_ne_nil _ _ _ hne h
        · simp only [move_cat, hcap, if_pos, cat_caught_mouse, hcm, decide_False,
            Bool.false_eq_true, if_false, if_true] at h
          exact catLoopMax_start_ne_nil _ _ _ hne h
    · exfalso
      have : (move_cat (d + 1) cat mouse escape alpha beta mx).1 = capture_moves cat mouse := by
        simp [move_cat, hcap]
      rw [this] at h
      exact hcap h

/-- Witness for C8 at a depth-0 leaf: cat `(0,0)`, mouse `(4,4)`. -/
theorem C8_witness :
    inBounds ((0 : ℤ), (0 : ℤ)) = true ∧
      ((0 : ℕ) = 0 ∨ ((0 : ℤ), (0 : ℤ)) = ((4 : ℤ), (4 : ℤ))) :=
  ⟨by decide,
    C8_never_raises ((0 : ℤ), (0 : ℤ)) ((4 : ℤ), (4 : ℤ)) ((7 : ℤ), (7 : ℤ)) 0 ⊥ posInf true
      (by decide) (by decide)⟩

end CatMouse

namespace CatMouse

theorem capture_moves_inBounds {cat mouse q : Pos} (h : q ∈ capture_moves cat mouse) :
    inBounds q = true := by
  have := List.of_mem_filter h
  simp only [Bool.and_eq_true, decide_eq_true_eq] at this
  exact this.2

theorem catLoopMax_subset (child : Pos → XInt → XInt) (beta : XInt) :
    ∀ (l : List Pos) (me : XInt) (best : List Pos) (a : XInt) (r : Pos),
      r ∈ (catLoopMax child beta l me best a).1 → r ∈ best ∨ r ∈ l := by
  intro l
  induction l with
  | nil =>
    intro me best a r h
    simp only [catLoopMax] at h
    exact Or.inl h
  | cons m rest ih =>
    intro me best a r h
    simp only [catLoopMax] at h
    have hst : ∀ x : Pos, x ∈ (if me < child m a then ((child m a), [m])
        else if child m a = me then (me, best ++ [m]) else (me, best)).2 →
        x ∈ best ∨ x = m := by
      intro x hx
      by_cases h1 : me < child m a
      · simp [h1] at hx
        exact Or.inr hx
      · by_cases h2 : child m a = me
        · simp [h1, h2] at hx
          rcases hx with hx | hx
          · exact Or.inl hx
          · exact Or.inr hx
        · simp [h1, h2] at hx
          exact Or.inl hx
    by_cases hb : beta ≤ max a (child m a)
    · rw [if_pos hb] at h
      rcases hst r h with h3 | h3
      · exact Or.inl h3
      · right; simp [h3]
    · rw [if_neg hb] at h
      rcases ih _ _ _ _ h with h3 | h3
      · rcases hst r h3 with h4 | h4
        · exact Or.inl h4
        · right; simp [h4]
      · right; simp [h3]

theorem catLoopMin_subset (child : Pos → XInt → XInt) (alpha : XInt) :
    ∀ (l : List Pos) (me : XInt) (best : List Pos) (b : XInt) (r : Pos),
      r ∈ (catLoopMin child alpha l me best b).1 → r ∈ best ∨ r ∈ l := by
  intro l
  induction l with
  | nil =>
    intro me best b r h
    simp only [catLoopMin] at h
    exact Or.inl h
  | cons m rest ih =>
    intro me best b r h
    simp only [catLoopMin] at h
    have hst : ∀ x : Pos, x ∈ (if child m b < me then ((child m b), [m])
        else if child m b = me then (me, best ++ [m]) else (me, best)).2 →
        x ∈ best ∨ x = m := by
      intro x hx
      by_cases h1 : child m b < me
      · simp [h1] at hx
        exact Or.inr hx
      · by_cases h2 : child m b = me
        · simp [h1, h2] at hx
          rcases hx with hx | hx
          · exact Or.inl hx
          · exact Or.inr hx
        · simp [h1, h2] at hx
          exact Or.inl hx
    by_cases hb : min b (child m b) ≤ alpha
    · rw [if_pos hb] at h
      rcases hst r h with h3 | h3
      · exact Or.inl h3
      · right; simp [h3]
    · rw [if_neg hb] at h
      rcases ih _ _ _ _ h with h3 | h3
      · rcases hst r h3 with h4 | h4
        · exact Or.inl h4
        · right; simp [h4]
      · right; simp [h3]

theorem move_cat_result_inBounds (depth : ℕ) (cat mouse escape : Pos)
    (alpha beta : XInt) (mx : Bool) :
    ∀ r ∈ (move_cat depth cat mouse escape alpha beta mx).1, inBounds r = true := by
  intro r hr
  cases depth with
  | zero =>
    by_cases hcap : capture_moves cat mouse = []
    · simp [move_cat, hcap] at hr
    · have : (move_cat 0 cat mouse escape alpha beta mx).1 = capture_moves cat mouse := by
        simp [move_cat, hcap]
      rw [this] at hr
      exact capture_moves_inBounds hr
  | succ d =>
    by_cases hcap : capture_moves cat mouse = []
    · by_cases hcm : cat = mouse
      · subst hcm
        simp [move_cat, hcap, cat_caught_mouse] at hr
      · cases mx
        · simp only [move_cat, hcap, if_pos, cat_caught_mouse, hcm, decide_False,
            Bool.false_eq_true, if_false, Bool.if_false_right] at hr
          rcases catLoopMin_subset _ _ _ _ _ _ _ hr with h2 | h2
          · simp at h2
          · exact neighbors_mem_inBounds h2
        · simp only [move_cat, hcap, if_pos, cat_caught_mouse, hcm, decide_False,
            Bool.false_eq_true, if_false, if_true] at hr
          rcases catLoopMax_subset _ _ _ _ _ _ _ hr with h2 | h2
          · simp at h2
          · exact neighbors_mem_inBounds h2
    · have : (move_cat (d + 1) cat mouse escape alpha beta mx).1 = capture_moves cat mouse := by
        simp [move_cat, hcap]
      rw [this] at hr
      exact capture_moves_inBounds hr

theorem move_mouse_choices_inBounds (mouse cat escape : Pos)
    (hm : inBounds mouse = true) :
    ∀ r ∈ move_mouse_choices mouse cat escape, inBounds r = true := by
  intro r hr
  simp only [move_mouse_choices] at hr
  by_cases he : escape ∈ neighbors mouse
  · rw [if_pos he] at hr
    simp at hr
    subst hr
    exact neighbors_mem_inBounds he
  · rw [if_neg he] at hr
    by_cases hs : mouseSafe mouse cat = []
    · simp only [hs, if_pos] at hr
      rcases hpp : mousePossible mouse cat with _ | ⟨x, rest⟩
      · rw [hpp] at hr
        simp at hr
        subst hr
        exact hm
      · rw [hpp] at hr
        simp at hr
        subst hr
        have hmem : pyMaxFrom (fun m => calculate_manhattan_distance m cat) rest x ∈
            x :: rest := pyMaxFrom_mem _ rest x
        rw [← hpp] at hmem
        exact neighbors_mem_inBounds (mousePossible_subset _ hmem)
    · simp only [if_neg hs] at hr
      by_cases hb : mouseLoop (mouseScore mouse cat escape (mouseSafe mouse cat))
          (mouseSafe mouse cat) ⊥ [] = []
      · rw [if_pos hb] at hr
        simp at hr
        subst hr
        exact hm
      · rw [if_neg hb] at hr
        rcases mouseLoop_subset _ _ _ _ _ hr with h2 | h2
        · simp at h2
        · exact neighbors_mem_inBounds (mousePossible_subset _ (mouseSafe_subset _ h2))

theorem edgeScanList_isEdge : ∀ p ∈ edgeScanList, isEdgeCell p = true := by
  decide

theorem farthestAux_mem (mouse : Pos) :
    ∀ (l : List Pos) (maxd : ℤ) (far : Option Pos) (f : Pos),
      (farthestAux mouse l maxd far).2 = some f → far = some f ∨ f ∈ l := by
  intro l
  induction l with
  | nil => intro maxd far f h; exact Or.inl h
  | cons p rest ih =>
    intro maxd far f h
    simp only [farthestAux] at h
    by_cases h1 : maxd < calculate_manhattan_distance p mouse
    · rw [if_pos h1] at h
      rcases ih _ _ _ h with h2 | h2
      · simp at h2
        subst h2
        right; simp
      · right; simp [h2]
    · rw [if_neg h1] at h
      rcases ih _ _ _ h with h2 | h2
      · exact Or.inl h2
      · right; simp [h2]

theorem random_edge_pos_choices_isEdge (mouse : Pos) (d : ℤ) :
    ∀ r ∈ random_edge_pos_choices mouse d, isEdgeCell r = true := by
  intro r hr
  simp only [random_edge_pos_choices] at hr
  by_cases hc : edge_candidates mouse d = []
  · rw [if_pos hc] at hr
    rcases hf : farthest_edge mouse with _ | f
    · rw [hf] at hr
      simp at hr
    · rw [hf] at hr
      simp at hr
      subst hr
      rcases farthestAux_mem mouse edgeScanList (-1) none r hf with h2 | h2
      · simp at h2
      · exact edgeScanList_isEdge r h2
  · rw [if_neg hc] at hr
    exact edgeScanList_isEdge r (List.mem_of_mem_filter hr)

/-- C9: every candidate move `move_cat` can return lies on the 8x8 board;
for an in-bounds mouse every position `move_mouse` can return lies on the
board; and every position `random_edge_pos` can return is an edge cell
(row or column equal to 0 or 7).  Hence the game-state invariant is
preserved by every turn. -/
theorem C9_board_invariants :
    (∀ (depth : ℕ) (cat mouse escape : Pos) (alpha beta : XInt) (mx : Bool),
      ∀ r ∈ (move_cat depth cat mouse escape alpha beta mx).1, inBounds r = true) ∧
    (∀ mouse cat escape : Pos, inBounds mouse = true →
      ∀ r ∈ move_mouse_choices mouse cat escape, inBounds r = true) ∧
    (∀ (mouse : Pos) (d : ℤ), ∀ r ∈ random_edge_pos_choices mouse d,
      isEdgeCell r = true) :=
  ⟨fun depth cat mouse escape alpha beta mx =>
      move_cat_result_inBounds depth cat mouse escape alpha beta mx,
    fun mouse cat escape hm => move_mouse_choices_inBounds mouse cat escape hm,
    fun mouse d => random_edge_pos_choices_isEdge mouse d⟩

/-- Witness for C9 at concrete inputs: a capture move of the cat, a mouse
move at `(3,3)` against cat `(5,5)`, and the fallback edge cell for
min distance 100. -/
theorem C9_witness :
    inBounds ((0 : ℤ), (1 : ℤ)) = true ∧
      inBounds ((2 : ℤ), (3 : ℤ)) = true ∧
      isEdgeCell ((7 : ℤ), (7 : ℤ)) = true :=
  ⟨C9_board_invariants.1 1 ((0 : ℤ), (0 : ℤ)) ((0 : ℤ), (1 : ℤ)) ((7 : ℤ), (7 : ℤ))
      ⊥ posInf true ((0 : ℤ), (1 : ℤ)) (by decide),
    C9_board_invariants.2.1 ((3 : ℤ), (3 : ℤ)) ((5 : ℤ), (5 : ℤ)) ((0 : ℤ), (3 : ℤ))
      (by decide) ((2 : ℤ), (3 : ℤ)) (by decide),
    C9_board_invariants.2.2 ((3 : ℤ), (3 : ℤ)) 100 ((7 : ℤ), (7 : ℤ)) (by decide)⟩

end CatMouse

namespace CatMouse

theorem farthestAux_fst (mouse : Pos) :
    ∀ (l : List Pos) (maxd : ℤ) (far : Option Pos),
      maxd ≤ (farthestAux mouse l maxd far).1 ∧
        ∀ p ∈ l, calculate_manhattan_distance p mouse ≤ (farthestAux mouse l maxd far).1 := by
  intro l
  induction l with
  | nil =>
    intro maxd far
    exact ⟨le_refl _, by simp⟩
  | cons p rest ih =>
    intro maxd far
    simp only [farthestAux]
    by_cases h1 : maxd < calculate_manhattan_distance p mouse
    · rw [if_pos h1]
      rcases ih (calculate_manhattan_distance p mouse) (some p) with ⟨ha, hb⟩
      refine ⟨le_trans h1.le ha, ?_⟩
      intro q hq
      rcases List.mem_cons.1 hq with hq | hq
      · subst hq; exact ha
      · exact hb q hq
    · rw [if_neg h1]
      rcases ih maxd far with ⟨ha, hb⟩
      refine ⟨ha, ?_⟩
      intro q hq
      rcases List.mem_cons.1 hq with hq | hq
      · subst hq; exact le_trans (not_lt.1 h1) ha
      · exact hb q hq

theorem farthestAux_val (mouse : Pos) :
    ∀ (l : List Pos) (maxd : ℤ) (far : Option Pos),
      (∀ g, far = some g → calculate_manhattan_distance g mouse = maxd) →
      ∀ f, (farthestAux mouse l maxd far).2 = some f →
        calculate_manhattan_distance f mouse = (farthestAux mouse l maxd far).1 := by
  intro l
  induction l with
  | nil =>
    intro maxd far hfar f h
    exact hfar f h
  | cons p rest ih =>
    intro maxd far hfar f h
    simp only [farthestAux] at h ⊢
    by_cases h1 : maxd < calculate_manhattan_distance p mouse
    · rw [if_pos h1] at h ⊢
      refine ih _ _ ?_ f h
      intro g hg
      simp at hg
      subst hg
      rfl
    · rw [if_neg h1] at h ⊢
      exact ih _ _ hfar f h

theorem farthestAux_none (mouse : Pos) :
    ∀ (l : List Pos) (maxd : ℤ) (far : Option Pos),
      (farthestAux mouse l maxd far).2 = none →
        far = none ∧ ∀ p ∈ l, calculate_manhattan_distance p mouse ≤ maxd := by
  intro l
  induction l with
  | nil =>
    intro maxd far h
    exact ⟨h, by simp⟩
  | cons p rest ih =>
    intro maxd far h
    simp only [farthestAux] at h
    by_cases h1 : maxd < calculate_manhattan_distance p mouse
    · rw [if_pos h1] at h
      rcases ih _ _ h with ⟨hfar, _⟩
      simp at hfar
    · rw [if_neg h1] at h
      rcases ih _ _ h with ⟨hfar, hall⟩
      refine ⟨hfar, ?_⟩
      intro q hq
      rcases List.mem_cons.1 hq with hq | hq
      · subst hq; exact not_lt.1 h1
      · exact hall q hq

/-- The fallback scan of `random_edge_pos` always yields some edge cell of
maximum Manhattan distance from the mouse. -/
theorem farthest_edge_spec (mouse : Pos) :
    ∃ f, farthest_edge mouse = some f ∧ f ∈ edgeScanList ∧
      ∀ e ∈ edgeScanList,
        calculate_manhattan_distance e mouse ≤ calculate_manhattan_distance f mouse := by
  rcases hf : farthest_edge mouse with _ | f
  · exfalso
    have hf2 : (farthestAux mouse edgeScanList (-1) none).2 = none := hf
    have hall := (farthestAux_none mouse edgeScanList (-1) none hf2).2
    have h00 : ((0 : ℤ), (0 : ℤ)) ∈ edgeScanList := by decide
    have hle := hall _ h00
    have hnn : (0 : ℤ) ≤ calculate_manhattan_distance ((0 : ℤ), (0 : ℤ)) mouse := by
      unfold calculate_manhattan_distance
      positivity
    omega
  · have hf2 : (farthestAux mouse edgeScanList (-1) none).2 = some f := hf
    refine ⟨f, rfl, ?_, ?_⟩
    · rcases farthestAux_mem mouse edgeScanList (-1) none f hf2 with h | h
      · simp at h
      · exact h
    · intro e he
      have hval := farthestAux_val mouse edgeScanList (-1) none (by intro g hg; simp at hg) f hf2
      have hfst := (farthestAux_fst mouse edgeScanList (-1) none).2 e he
      rw [hval]
      exact hfst

/-- C7: the setup rejection loop only accepts cat/mouse pairs at Manhattan
distance at least 4; whenever some edge cell is at distance at least
`min_distance` from the mouse, every position `random_edge_pos` can
return is an edge cell satisfying that threshold; and when no edge cell
qualifies, the result is the deterministic singleton edge cell of maximum
Manhattan distance from the mouse (not a random choice). -/
theorem C7_setup_and_placement :
    (∀ (proposals : List (Pos × Pos)) (pr : Pos × Pos), setupPlace proposals = some pr →
      4 ≤ calculate_manhattan_distance pr.1 pr.2) ∧
    (∀ (mouse : Pos) (d : ℤ),
      (∃ e ∈ edgeScanList, d ≤ calculate_manhattan_distance e mouse) →
      random_edge_pos_choices mouse d ≠ [] ∧
        ∀ r ∈ random_edge_pos_choices mouse d,
          isEdgeCell r = true ∧ d ≤ calculate_manhattan_distance r mouse) ∧
    (∀ (mouse : Pos) (d : ℤ),
      (∀ e ∈ edgeScanList, calculate_manhattan_distance e mouse < d) →
      ∃ f, random_edge_pos_choices mouse d = [f] ∧ f ∈ edgeScanList ∧
        ∀ e ∈ edgeScanList,
          calculate_manhattan_distance e mouse ≤ calculate_manhattan_distance f mouse) := by
  refine ⟨?_, ?_, ?_⟩
  · intro proposals pr h
    have := List.find?_some h
    simpa using this
  · intro mouse d ⟨e, he, hde⟩
    have hmem : e ∈ edge_candidates mouse d :=
      List.mem_filter.2 ⟨he, by simpa using hde⟩
    have hc : edge_candidates mouse d ≠ [] := List.ne_nil_of_mem hmem
    have hch : random_edge_pos_choices mouse d = edge_candidates mouse d := by
      simp only [random_edge_pos_choices, if_neg hc]
    rw [hch]
    refine ⟨hc, ?_⟩
    intro r hr
    refine ⟨edgeScanList_isEdge r (List.mem_of_mem_filter hr), ?_⟩
    have := List.of_mem_filter hr
    simpa using this
  · intro mouse d hall
    have hc : edge_candidates mouse d = [] := by
      apply List.filter_eq_nil_iff.2
      intro a ha
      simp only [decide_eq_true_eq, not_le]
      exact hall a ha
    rcases farthest_edge_spec mouse with ⟨f, hf, hmem, hmax⟩
    refine ⟨f, ?_, hmem, hmax⟩
    simp only [random_edge_pos_choices, if_pos hc, hf]

/-- Witness for C7: setup proposal `((0,0),(0,4))`, escape placement for
mouse `(3,3)` with threshold 5, and the fallback for threshold 100. -/
theorem C7_witness :
    4 ≤ calculate_manhattan_distance ((0 : ℤ), (0 : ℤ)) ((0 : ℤ), (4 : ℤ)) ∧
      (random_edge_pos_choices ((3 : ℤ), (3 : ℤ)) 5 ≠ [] ∧
        ∀ r ∈ random_edge_pos_choices ((3 : ℤ), (3 : ℤ)) 5,
          isEdgeCell r = true ∧ (5 : ℤ) ≤ calculate_manhattan_distance r ((3 : ℤ), (3 : ℤ))) ∧
      (∃ f, random_edge_pos_choices ((3 : ℤ), (3 : ℤ)) 100 = [f] ∧ f ∈ edgeScanList ∧
        ∀ e ∈ edgeScanList, calculate_manhattan_distance e ((3 : ℤ), (3 : ℤ)) ≤
          calculate_manhattan_distance f ((3 : ℤ), (3 : ℤ))) :=
  ⟨C7_setup_and_placement.1 [(((0 : ℤ), (0 : ℤ)), ((0 : ℤ), (4 : ℤ)))]
      (((0 : ℤ), (0 : ℤ)), ((0 : ℤ), (4 : ℤ))) (by decide),
    C7_setup_and_placement.2.1 ((3 : ℤ), (3 : ℤ)) 5 ⟨((0 : ℤ), (0 : ℤ)), by decide, by decide⟩,
    C7_setup_and_placement.2.2 ((3 : ℤ), (3 : ℤ)) 100 (by decide)⟩

/-- C10: for every in-bounds mouse position on the 8x8 board some edge
cell is at Manhattan distance at least 5, so `random_edge_pos` with
`min_distance = 5` never takes its fallback branch (the candidate list is
non-empty) and every position it can return is at distance at least 5
from the mouse. -/
theorem C10_escape_min_distance (mouse : Pos) (hm : inBounds mouse = true) :
    edge_candidates mouse 5 ≠ [] ∧
      ∀ r ∈ random_edge_pos_choices mouse 5,
        5 ≤ calculate_manhattan_distance r mouse := by
  obtain ⟨a, b⟩ := mouse
  simp only [inBounds, decide_eq_true_eq, BOARD_SIZE] at hm
  obtain ⟨h1, h2, h3, h4⟩ := hm
  interval_cases a <;> interval_cases b <;> decide

/-- Witness for C10 at mouse `(3,3)`. -/
theorem C10_witness :
    inBounds ((3 : ℤ), (3 : ℤ)) = true ∧
      (edge_candidates ((3 : ℤ), (3 : ℤ)) 5 ≠ [] ∧
        ∀ r ∈ random_edge_pos_choices ((3 : ℤ), (3 : ℤ)) 5,
          5 ≤ calculate_manhattan_distance r ((3 : ℤ), (3 : ℤ))) :=
  ⟨by decide, C10_escape_min_distance ((3 : ℤ), (3 : ℤ)) (by decide)⟩

end CatMouse
